import Mathlib

/-!
Verification of the electric-field core of the `Repl_Electric_Field`
repository (`src/electric_field.py`), shallowly embedded in Lean 4.

Conventions of the embedding:

* numpy 1-d arrays are `List ℝ`;
* `np.linalg.norm` is `npNorm`;
* numpy elementwise subtraction of 1-d arrays, including its broadcasting
  rule, is `npSub`; it returns `none` where numpy raises a broadcast
  `ValueError`;
* `calculate_field_at_point` returns `Option (List ℝ)`, with `none` standing
  for a raised dimensionality/broadcast error;
* the six 2-d arrays `(X, Y, Z, Ex, Ey, Ez)` returned by
  `calculate_field_grid` are modelled as a pair of row-major flattened lists:
  the list of points `[X[i,j], Y[i,j], Z[i,j]]` and the list of field vectors
  `[Ex[i,j], Ey[i,j], Ez[i,j]]`, an index `(i, j)` of the `n × n` arrays
  becoming the flat index `i*n + j`.
-/

open Real

/-- `np.linalg.norm` of a 1-d array: the Euclidean norm. -/
noncomputable def npNorm (v : List ℝ) : ℝ := Real.sqrt ((v.map (fun x => x ^ 2)).sum)

/-- numpy elementwise subtraction of 1-d arrays with broadcasting: shapes
`(m,)` and `(k,)` are compatible iff `m = k`, `m = 1` or `k = 1`; an
incompatible pair raises a `ValueError` (`none` here). -/
noncomputable def npSub (a b : List ℝ) : Option (List ℝ) :=
  if a.length = b.length then some (List.zipWith (fun x y => x - y) a b)
  else if a.length = 1 then some (b.map (fun y => a.headD 0 - y))
  else if b.length = 1 then some (a.map (fun x => x - b.headD 0))
  else none

/-- The `ElectricField` class of `src/electric_field.py`: a charge magnitude,
the stored charge position and Coulomb's constant `k` (an instance attribute
set by `__init__`). -/
structure ElectricField where
  charge : ℝ
  position : List ℝ
  k : ℝ

/-- `ElectricField.__init__`: stores the charge, zero-pads a 2-component
position to 3 components (`list(position) + [0.0]`), and sets `k = 8.99e9`. -/
noncomputable def ElectricField.init (charge : ℝ) (position : List ℝ) : ElectricField :=
  { charge := charge
    position := if position.length = 2 then position ++ [0.0] else position
    k := 8.99e9 }

/-- The `len(point) == 2` promotion at the top of `calculate_field_at_point`:
`point = np.array([point[0], point[1], 0.0])`. -/
def promote_point (point : List ℝ) : List ℝ :=
  match point with
  | [x, y] => [x, y, 0.0]
  | _ => point

/-- `ElectricField.calculate_field_at_point`: Coulomb's law with the epsilon
singularity guard returning `np.zeros(3)`.  `none` models a numpy broadcast
error raised by `point - self.position`. -/
noncomputable def calculate_field_at_point (f : ElectricField) (point : List ℝ) :
    Option (List ℝ) :=
  match npSub (promote_point point) f.position with
  | none => none
  | some r =>
    let r_magnitude := npNorm r
    if r_magnitude < 1e-10 then some [0.0, 0.0, 0.0]
    else
      let r_hat := r.map (fun x => x / r_magnitude)
      some (r_hat.map (fun x => f.k * f.charge * x / r_magnitude ^ 2))

/-- `np.linspace a b n`: `n` evenly spaced samples from `a` to `b`, inclusive
of both endpoints.  For `n = 1` numpy returns `[a]`, which this formula also
yields: the only index is `i = 0` and division by `((1 - 1 : ℕ) : ℝ) = 0` is
irrelevant under the factor `(0 : ℝ)`. -/
noncomputable def linspace (a b : ℝ) (n : ℕ) : List ℝ :=
  (List.range n).map (fun i : ℕ => a + (i : ℝ) * ((b - a) / ((n - 1 : ℕ) : ℝ)))

/-- The spherical grid of points built by `calculate_field_grid`:
`phi = np.linspace(0, 2π, n)`, `theta = np.linspace(0, π, n)`,
`phi, theta = np.meshgrid(phi, theta)` (so the `(i, j)` entries are `phi[j]`
and `theta[i]`), then `X = r sin(theta) cos(phi)`, `Y = r sin(theta) sin(phi)`,
`Z = r cos(theta)`, flattened here in row-major (numpy C) order. -/
noncomputable def grid_points (radius : ℝ) (n : ℕ) : List (List ℝ) :=
  let phi := linspace 0 (2 * π) n
  let theta := linspace 0 π n
  ((List.range n).map (fun i => (List.range n).map (fun j =>
    [radius * Real.sin (theta.getD i 0) * Real.cos (phi.getD j 0),
     radius * Real.sin (theta.getD i 0) * Real.sin (phi.getD j 0),
     radius * Real.cos (theta.getD i 0)]))).flatten

/-- `ElectricField.calculate_field_grid`: spherical-shell sampling.  The
double loop `for i in range(n_points): for j in range(n_points):` filling
`Ex, Ey, Ez` from `calculate_field_at_point` is the row-major `map` below
(the evaluation always succeeds on these 3-component points, so the `getD`
default is never used). -/
noncomputable def calculate_field_grid (f : ElectricField) (radius : ℝ) (n_points : ℕ) :
    List (List ℝ) × List (List ℝ) :=
  (grid_points radius n_points,
   (grid_points radius n_points).map
     (fun p => (calculate_field_at_point f p).getD [0.0, 0.0, 0.0]))

/-- The spec-side Cartesian conversion for the spherical shell:
`(r sin θ cos φ, r sin θ sin φ, r cos θ)`. -/
noncomputable def spherical_point (radius theta phi : ℝ) : List ℝ :=
  [radius * Real.sin theta * Real.cos phi,
   radius * Real.sin theta * Real.sin phi,
   radius * Real.cos theta]

/-- The spec-side `i`-th of `n` evenly spaced theta samples over `[0, π]`,
inclusive of endpoints (for `n ≥ 2`; for `n = 1` the single sample is `0`). -/
noncomputable def theta_sample (n i : ℕ) : ℝ := (i : ℝ) * π / ((n : ℝ) - 1)

/-- The spec-side `j`-th of `n` evenly spaced phi samples over `[0, 2π]`,
inclusive of endpoints (for `n ≥ 2`; for `n = 1` the single sample is `0`). -/
noncomputable def phi_sample (n j : ℕ) : ℝ := (j : ℝ) * (2 * π) / ((n : ℝ) - 1)

/-- Modelled from the spec: the rectangular-grid sampler (`sample` with a
`{kind:"grid", x_range, y_range, n_points}` descriptor, spec sections 4.2 and
6) is absent from `src/electric_field.py` — only a caller in
`src/visualization.py` invokes `calculate_field_grid(x_range, y_range,
n_points)` with a grid signature this version of the class no longer has.
Following the spec's words: an `n × n` grid of evenly spaced coordinates via
linear interpolation across each axis, inclusive of both endpoints, with
implicit `z = 0`, in row-major order over the two parameter axes, each point
paired with its field evaluation. -/
noncomputable def sample_grid (f : ElectricField) (xmin xmax ymin ymax : ℝ) (n : ℕ) :
    List (List ℝ) × List (List ℝ) :=
  let xs := linspace xmin xmax n
  let ys := linspace ymin ymax n
  let points := ((List.range n).map (fun i => (List.range n).map (fun j =>
    [xs.getD j 0, ys.getD i 0]))).flatten
  (points,
   points.map (fun p => (calculate_field_at_point f p).getD [0.0, 0.0, 0.0]))

/-- A vector is a positive multiple of a direction: parallel, same sense. -/
def ParallelTo (E d : List ℝ) : Prop :=
  ∃ t : ℝ, 0 < t ∧ E = d.map (fun x => t * x)

/-- A vector is a negative multiple of a direction: antiparallel. -/
def AntiparallelTo (E d : List ℝ) : Prop :=
  ∃ t : ℝ, 0 < t ∧ E = d.map (fun x => -(t * x))

/-! ## Helper lemmas -/

lemma npNorm_three (a b c : ℝ) :
    npNorm [a, b, c] = Real.sqrt (a ^ 2 + b ^ 2 + c ^ 2) := by
  unfold npNorm
  congr 1
  simp
  ring

lemma init_position3 (q c1 c2 c3 : ℝ) :
    (ElectricField.init q [c1, c2, c3]).position = [c1, c2, c3] := rfl

lemma init_position_length (q : ℝ) (pos : List ℝ)
    (h : pos.length = 2 ∨ pos.length = 3) :
    (ElectricField.init q pos).position.length = 3 := by
  unfold ElectricField.init
  rcases h with h | h <;> simp [h]

lemma promote_point_three (x y z : ℝ) : promote_point [x, y, z] = [x, y, z] := rfl

lemma promote_point_two (x y : ℝ) : promote_point [x, y] = [x, y, 0.0] := rfl

lemma promote_point_of_length_ne_two (p : List ℝ) (h : p.length ≠ 2) :
    promote_point p = p := by
  match p with
  | [] => rfl
  | [a] => rfl
  | [a, b] => exact absurd rfl h
  | a :: b :: c :: t => rfl

lemma promote_point_length (p : List ℝ) (hp : p.length = 2 ∨ p.length = 3) :
    (promote_point p).length = 3 := by
  rcases hp with h | h
  · obtain ⟨a, b, rfl⟩ := List.length_eq_two.mp h
    rfl
  · rw [promote_point_of_length_ne_two p (by omega)]
    exact h

lemma npSub_of_length_eq (a b : List ℝ) (h : a.length = b.length) :
    npSub a b = some (List.zipWith (fun x y => x - y) a b) := by
  unfold npSub
  rw [if_pos h]

lemma npSub_three (a1 a2 a3 b1 b2 b3 : ℝ) :
    npSub [a1, a2, a3] [b1, b2, b3] = some [a1 - b1, a2 - b2, a3 - b3] := by
  rw [npSub_of_length_eq [a1, a2, a3] [b1, b2, b3] (by rfl)]
  rfl

lemma init_charge (q : ℝ) (pos : List ℝ) : (ElectricField.init q pos).charge = q := rfl

lemma init_k (q : ℝ) (pos : List ℝ) : (ElectricField.init q pos).k = 8.99e9 := rfl

/-- Once the subtraction `point - self.position` has produced `r`, the body of
`calculate_field_at_point` is the guarded Coulomb formula. -/
lemma eval_eq_of_sub (f : ElectricField) (point r : List ℝ)
    (hsub : npSub (promote_point point) f.position = some r) :
    calculate_field_at_point f point =
      (if npNorm r < 1e-10 then some [0.0, 0.0, 0.0]
       else some ((r.map (fun x => x / npNorm r)).map
         (fun x => f.k * f.charge * x / npNorm r ^ 2))) := by
  unfold calculate_field_at_point
  rw [hsub]

/-- Evaluation of a 3-component-position field at an explicit 3-component
point, fully reduced. -/
lemma eval_init3 (q c1 c2 c3 p1 p2 p3 : ℝ) :
    calculate_field_at_point (ElectricField.init q [c1, c2, c3]) [p1, p2, p3] =
      (if npNorm [p1 - c1, p2 - c2, p3 - c3] < 1e-10 then some [0.0, 0.0, 0.0]
       else some (([p1 - c1, p2 - c2, p3 - c3].map
           (fun x => x / npNorm [p1 - c1, p2 - c2, p3 - c3])).map
         (fun x => 8.99e9 * q * x / npNorm [p1 - c1, p2 - c2, p3 - c3] ^ 2))) := by
  rw [eval_eq_of_sub _ _ [p1 - c1, p2 - c2, p3 - c3]
    (by rw [promote_point_three, init_position3]; exact npSub_three _ _ _ _ _ _)]
  simp only [init_charge, init_k]

lemma eval3_some (f : ElectricField) (h3 : f.position.length = 3) (x y z : ℝ) :
    ∃ v, calculate_field_at_point f [x, y, z] = some v ∧ v.length = 3 := by
  have hsub : npSub (promote_point [x, y, z]) f.position =
      some (List.zipWith (fun a b => a - b) [x, y, z] f.position) := by
    rw [promote_point_three]
    exact npSub_of_length_eq _ _ (by simp [h3])
  rw [eval_eq_of_sub _ _ _ hsub]
  have hlen : (List.zipWith (fun a b => a - b) [x, y, z] f.position).length = 3 := by
    simp [h3]
  split
  · exact ⟨_, rfl, rfl⟩
  · exact ⟨_, rfl, by simp [hlen]⟩

lemma length_flatten_const {α : Type} {m : ℕ} :
    ∀ ls : List (List α), (∀ l ∈ ls, l.length = m) →
      ls.flatten.length = ls.length * m := by
  intro ls
  induction ls with
  | nil => intro _; simp
  | cons l rest ih =>
    intro h
    have hl : l.length = m := h l (List.mem_cons_self _ _)
    have hr := ih (fun x hx => h x (List.mem_cons_of_mem _ hx))
    simp only [List.flatten_cons, List.length_append, List.length_cons, hl, hr]
    ring

lemma getD_flatten_const {α : Type} (d : α) {m : ℕ} :
    ∀ (ls : List (List α)) (i j : ℕ), (∀ l ∈ ls, l.length = m) →
      i < ls.length → j < m →
      ls.flatten.getD (i * m + j) d = (ls.getD i []).getD j d := by
  intro ls
  induction ls with
  | nil =>
    intro i j _ hi _
    exact absurd hi (Nat.not_lt_zero i)
  | cons l rest ih =>
    intro i j h hi hj
    have hl : l.length = m := h l (List.mem_cons_self _ _)
    cases i with
    | zero =>
      rw [List.flatten_cons]
      have hidx : 0 * m + j = j := by omega
      rw [hidx, List.getD_append _ _ _ _ (by omega), List.getD_cons_zero]
    | succ i =>
      rw [List.flatten_cons]
      have hidx : (i + 1) * m + j = l.length + (i * m + j) := by rw [hl]; ring
      rw [hidx, List.getD_append_right _ _ _ _ (Nat.le_add_right _ _),
        Nat.add_sub_cancel_left, List.getD_cons_succ]
      exact ih i j (fun x hx => h x (List.mem_cons_of_mem _ hx))
        (Nat.lt_of_succ_lt_succ hi) hj

lemma getD_map_range {α : Type} (g : ℕ → α) (d : α) {n i : ℕ} (hi : i < n) :
    ((List.range n).map g).getD i d = g i := by
  rw [List.getD_eq_getElem _ _ (by simpa using hi)]
  simp

lemma linspace_getD (a b : ℝ) {n i : ℕ} (hi : i < n) :
    (linspace a b n).getD i 0 = a + (i : ℝ) * ((b - a) / ((n : ℝ) - 1)) := by
  unfold linspace
  rw [getD_map_range _ _ hi]
  have h1 : (1 : ℕ) ≤ n := by omega
  rw [Nat.cast_sub h1, Nat.cast_one]

lemma grid_points_length (radius : ℝ) (n : ℕ) :
    (grid_points radius n).length = n * n := by
  unfold grid_points
  have hrows : ∀ l ∈ (List.range n).map (fun i => (List.range n).map (fun j =>
      [radius * Real.sin ((linspace 0 π n).getD i 0) * Real.cos ((linspace 0 (2 * π) n).getD j 0),
       radius * Real.sin ((linspace 0 π n).getD i 0) * Real.sin ((linspace 0 (2 * π) n).getD j 0),
       radius * Real.cos ((linspace 0 π n).getD i 0)])), l.length = n := by
    intro l hl
    obtain ⟨i, _, rfl⟩ := List.mem_map.mp hl
    simp
  rw [length_flatten_const _ hrows]
  simp

lemma grid_points_getD (radius : ℝ) {n i j : ℕ} (hi : i < n) (hj : j < n) :
    (grid_points radius n).getD (i * n + j) [] =
      spherical_point radius ((linspace 0 π n).getD i 0)
        ((linspace 0 (2 * π) n).getD j 0) := by
  unfold grid_points
  have hrows : ∀ l ∈ (List.range n).map (fun i => (List.range n).map (fun j =>
      [radius * Real.sin ((linspace 0 π n).getD i 0) * Real.cos ((linspace 0 (2 * π) n).getD j 0),
       radius * Real.sin ((linspace 0 π n).getD i 0) * Real.sin ((linspace 0 (2 * π) n).getD j 0),
       radius * Real.cos ((linspace 0 π n).getD i 0)])), l.length = n := by
    intro l hl
    obtain ⟨i', _, rfl⟩ := List.mem_map.mp hl
    simp
  rw [getD_flatten_const [] _ i j hrows (by simpa using hi) hj]
  rw [getD_map_range _ _ hi, getD_map_range _ _ hj]
  rfl

lemma grid_index_lt (n i j : ℕ) (hi : i < n) (hj : j < n) : i * n + j < n * n :=
  calc i * n + j < i * n + n := by omega
    _ = (i + 1) * n := by ring
    _ ≤ n * n := Nat.mul_le_mul_right n hi

lemma grid_vectors_getD (f : ElectricField) (radius : ℝ) {n i j : ℕ}
    (hi : i < n) (hj : j < n) :
    (calculate_field_grid f radius n).2.getD (i * n + j) [] =
      (calculate_field_at_point f
        ((grid_points radius n).getD (i * n + j) [])).getD [0.0, 0.0, 0.0] := by
  have hidx : i * n + j < n * n := grid_index_lt n i j hi hj
  have hlen : i * n + j < (grid_points radius n).length := by
    rw [grid_points_length]; exact hidx
  unfold calculate_field_grid
  rw [List.getD_eq_getElem _ _ (by simpa using hlen), List.getElem_map,
    List.getD_eq_getElem _ _ hlen]

/-! ## Claim theorems -/

/-- C1: for every charge `q`, charge position `c` and query point `p` with
`|p - c| ≥ 1e-10`, `calculate_field_at_point p` returns exactly
`k * q * r_hat / r_mag^2` where `r = p - c`, `r_mag = |r|`,
`r_hat = r / r_mag` and `k = 8.99e9`. -/
theorem C1_coulomb_law_exact (q c1 c2 c3 p1 p2 p3 : ℝ)
    (h : 1e-10 ≤ Real.sqrt ((p1 - c1) ^ 2 + (p2 - c2) ^ 2 + (p3 - c3) ^ 2)) :
    calculate_field_at_point (ElectricField.init q [c1, c2, c3]) [p1, p2, p3] =
      some [8.99e9 * q * ((p1 - c1) /
              Real.sqrt ((p1 - c1) ^ 2 + (p2 - c2) ^ 2 + (p3 - c3) ^ 2)) /
              Real.sqrt ((p1 - c1) ^ 2 + (p2 - c2) ^ 2 + (p3 - c3) ^ 2) ^ 2,
            8.99e9 * q * ((p2 - c2) /
              Real.sqrt ((p1 - c1) ^ 2 + (p2 - c2) ^ 2 + (p3 - c3) ^ 2)) /
              Real.sqrt ((p1 - c1) ^ 2 + (p2 - c2) ^ 2 + (p3 - c3) ^ 2) ^ 2,
            8.99e9 * q * ((p3 - c3) /
              Real.sqrt ((p1 - c1) ^ 2 + (p2 - c2) ^ 2 + (p3 - c3) ^ 2)) /
              Real.sqrt ((p1 - c1) ^ 2 + (p2 - c2) ^ 2 + (p3 - c3) ^ 2) ^ 2] := by
  have hrm : npNorm [p1 - c1, p2 - c2, p3 - c3] =
      Real.sqrt ((p1 - c1) ^ 2 + (p2 - c2) ^ 2 + (p3 - c3) ^ 2) := npNorm_three _ _ _
  rw [eval_init3, if_neg (by rw [hrm]; exact not_lt.mpr h)]
  simp only [List.map_cons, List.map_nil, hrm]

/-- Witness for C1 at the spec's concrete scenario 1: unit direction, so the
field is `(8.99e9 * q, 0, 0)`. -/
theorem C1_coulomb_law_exact_w :
    1e-10 ≤ Real.sqrt (((1 : ℝ) - 0) ^ 2 + ((0 : ℝ) - 0) ^ 2 + ((0 : ℝ) - 0) ^ 2) ∧
    calculate_field_at_point (ElectricField.init 1 [0, 0, 0]) [1, 0, 0] =
      some [8.99e9 * 1 * (((1 : ℝ) - 0) /
              Real.sqrt (((1 : ℝ) - 0) ^ 2 + ((0 : ℝ) - 0) ^ 2 + ((0 : ℝ) - 0) ^ 2)) /
              Real.sqrt (((1 : ℝ) - 0) ^ 2 + ((0 : ℝ) - 0) ^ 2 + ((0 : ℝ) - 0) ^ 2) ^ 2,
            8.99e9 * 1 * (((0 : ℝ) - 0) /
              Real.sqrt (((1 : ℝ) - 0) ^ 2 + ((0 : ℝ) - 0) ^ 2 + ((0 : ℝ) - 0) ^ 2)) /
              Real.sqrt (((1 : ℝ) - 0) ^ 2 + ((0 : ℝ) - 0) ^ 2 + ((0 : ℝ) - 0) ^ 2) ^ 2,
            8.99e9 * 1 * (((0 : ℝ) - 0) /
              Real.sqrt (((1 : ℝ) - 0) ^ 2 + ((0 : ℝ) - 0) ^ 2 + ((0 : ℝ) - 0) ^ 2)) /
              Real.sqrt (((1 : ℝ) - 0) ^ 2 + ((0 : ℝ) - 0) ^ 2 + ((0 : ℝ) - 0) ^ 2) ^ 2] := by
  have h : 1e-10 ≤ Real.sqrt (((1 : ℝ) - 0) ^ 2 + ((0 : ℝ) - 0) ^ 2 + ((0 : ℝ) - 0) ^ 2) := by
    have e : ((1 : ℝ) - 0) ^ 2 + ((0 : ℝ) - 0) ^ 2 + ((0 : ℝ) - 0) ^ 2 = 1 := by norm_num
    rw [e, Real.sqrt_one]
    norm_num
  exact ⟨h, C1_coulomb_law_exact 1 0 0 0 1 0 0 h⟩

/-- C2: within the epsilon ball around the charge position the field
evaluates, without raising, to the zero vector whose dimensionality matches
the stored charge position (which is always 3-component). -/
theorem C2_singularity_guard (q : ℝ) (pos p : List ℝ)
    (hpos : pos.length = 2 ∨ pos.length = 3)
    (hp : p.length = 2 ∨ p.length = 3)
    (hnear : npNorm (List.zipWith (fun x y => x - y) (promote_point p)
      (ElectricField.init q pos).position) < 1e-10) :
    calculate_field_at_point (ElectricField.init q pos) p = some [0.0, 0.0, 0.0] ∧
    ([0.0, 0.0, 0.0] : List ℝ).length = (ElectricField.init q pos).position.length := by
  have h3 := init_position_length q pos hpos
  have hsub : npSub (promote_point p) (ElectricField.init q pos).position =
      some (List.zipWith (fun x y => x - y) (promote_point p)
        (ElectricField.init q pos).position) :=
    npSub_of_length_eq _ _ (by rw [promote_point_length p hp, h3])
  refine ⟨?_, by simp [h3]⟩
  rw [eval_eq_of_sub _ _ _ hsub, if_pos hnear]

/-- Witness for C2 at the spec's concrete scenario 2: evaluation exactly at
the charge position. -/
theorem C2_singularity_guard_w :
    calculate_field_at_point (ElectricField.init 1 [0, 0, 0]) [0, 0, 0] =
      some [0.0, 0.0, 0.0] ∧
    ([0.0, 0.0, 0.0] : List ℝ).length =
      (ElectricField.init 1 [0, 0, 0]).position.length := by
  have h1 : ([(0 : ℝ), 0, 0]).length = 2 ∨ ([(0 : ℝ), 0, 0]).length = 3 := Or.inr rfl
  have hnear : npNorm (List.zipWith (fun x y => x - y) (promote_point [(0 : ℝ), 0, 0])
      (ElectricField.init 1 [0, 0, 0]).position) < 1e-10 := by
    have e : List.zipWith (fun x y => x - y) (promote_point [(0 : ℝ), 0, 0])
        (ElectricField.init 1 [0, 0, 0]).position = [0 - 0, 0 - 0, 0 - 0] := rfl
    rw [e, npNorm_three]
    have e2 : ((0 : ℝ) - 0) ^ 2 + ((0 : ℝ) - 0) ^ 2 + ((0 : ℝ) - 0) ^ 2 = 0 := by norm_num
    rw [e2, Real.sqrt_zero]
    norm_num
  exact C2_singularity_guard 1 [0, 0, 0] [0, 0, 0] h1 h1 hnear

/-- C6 as stated is false: a 1-component query point is neither 2-component
nor of the charge's native (3) dimensionality, yet `calculate_field_at_point`
does not fail on it — numpy broadcasting silently subtracts it across all
three coordinates of the stored position. -/
theorem C6_cex :
    ([(5 : ℝ)].length = 1) ∧
    (calculate_field_at_point (ElectricField.init 1 [0, 0, 0]) [5]).isSome = true := by
  refine ⟨rfl, ?_⟩
  have hsub : npSub (promote_point [(5 : ℝ)]) (ElectricField.init 1 [0, 0, 0]).position =
      some [5 - 0, 5 - 0, 5 - 0] := rfl
  rw [eval_eq_of_sub _ _ _ hsub]
  split
  · rfl
  · rfl

/-- C6 amended: a 2-component query point is promoted with a zero third
coordinate before subtraction, and a query point whose dimensionality is
neither 1, 2 nor 3 fails with a broadcast (dimensionality-mismatch) error;
a 1-component point is silently broadcast instead of rejected. -/
theorem C6_dim_handling (q c1 c2 c3 : ℝ) (p : List ℝ) :
    (∀ x y : ℝ, calculate_field_at_point (ElectricField.init q [c1, c2, c3]) [x, y] =
        calculate_field_at_point (ElectricField.init q [c1, c2, c3]) [x, y, 0.0]) ∧
    (p.length ≠ 1 → p.length ≠ 2 → p.length ≠ 3 →
      calculate_field_at_point (ElectricField.init q [c1, c2, c3]) p = none) := by
  constructor
  · intro x y
    rfl
  · intro h1 h2 h3
    unfold calculate_field_at_point
    rw [promote_point_of_length_ne_two p h2, init_position3]
    have hsub : npSub p [c1, c2, c3] = none := by
      unfold npSub
      rw [if_neg (by simpa using h3), if_neg h1, if_neg (by simp)]
    rw [hsub]

/-- Witness for the amended C6: a 4-component query point is rejected. -/
theorem C6_dim_handling_w :
    calculate_field_at_point (ElectricField.init 1 [0, 0, 0]) [4, 5, 6, 7] = none :=
  (C6_dim_handling 1 0 0 0 [4, 5, 6, 7]).2 (by simp) (by simp) (by simp)

/-- C7: the field is linear in the charge magnitude — a charge of magnitude
`2q` yields exactly twice the vector of a charge of magnitude `q` at any
fixed non-singular point. -/
theorem C7_magnitude_linear (q c1 c2 c3 p1 p2 p3 : ℝ)
    (h : 1e-10 ≤ Real.sqrt ((p1 - c1) ^ 2 + (p2 - c2) ^ 2 + (p3 - c3) ^ 2)) :
    calculate_field_at_point (ElectricField.init (2 * q) [c1, c2, c3]) [p1, p2, p3] =
      Option.map (List.map (fun x => 2 * x))
        (calculate_field_at_point (ElectricField.init q [c1, c2, c3]) [p1, p2, p3]) := by
  have hrm : npNorm [p1 - c1, p2 - c2, p3 - c3] =
      Real.sqrt ((p1 - c1) ^ 2 + (p2 - c2) ^ 2 + (p3 - c3) ^ 2) := npNorm_three _ _ _
  have hng : ¬ npNorm [p1 - c1, p2 - c2, p3 - c3] < 1e-10 := by
    rw [hrm]
    exact not_lt.mpr h
  rw [eval_init3, eval_init3, if_neg hng, if_neg hng]
  simp only [Option.map_some', Option.some.injEq, List.map_cons, List.map_nil,
    List.cons.injEq, and_true]
  refine ⟨by ring, by ring, by ring⟩

/-- Witness for C7 at charge magnitudes 2 and 1, query point `(1,0,0)`. -/
theorem C7_magnitude_linear_w :
    1e-10 ≤ Real.sqrt (((1 : ℝ) - 0) ^ 2 + ((0 : ℝ) - 0) ^ 2 + ((0 : ℝ) - 0) ^ 2) ∧
    calculate_field_at_point (ElectricField.init (2 * 1) [0, 0, 0]) [1, 0, 0] =
      Option.map (List.map (fun x => 2 * x))
        (calculate_field_at_point (ElectricField.init 1 [0, 0, 0]) [1, 0, 0]) := by
  have h : 1e-10 ≤ Real.sqrt (((1 : ℝ) - 0) ^ 2 + ((0 : ℝ) - 0) ^ 2 + ((0 : ℝ) - 0) ^ 2) := by
    have e : ((1 : ℝ) - 0) ^ 2 + ((0 : ℝ) - 0) ^ 2 + ((0 : ℝ) - 0) ^ 2 = 1 := by norm_num
    rw [e, Real.sqrt_one]
    norm_num
  exact ⟨h, C7_magnitude_linear 1 0 0 0 1 0 0 h⟩

lemma grid_fst (f : ElectricField) (radius : ℝ) (n : ℕ) :
    (calculate_field_grid f radius n).1 = grid_points radius n := rfl

lemma grid_snd (f : ElectricField) (radius : ℝ) (n : ℕ) :
    (calculate_field_grid f radius n).2 =
      (grid_points radius n).map
        (fun p => (calculate_field_at_point f p).getD [0.0, 0.0, 0.0]) := rfl

/-- C8 as stated is false: at a query point strictly inside the epsilon ball
but away from the charge position (here `|r| = 1e-11`, so `r_hat` is a
genuine unit vector), a positive charge produces the zero vector, which is
not parallel to `r_hat`. -/
theorem C8_cex :
    (0 : ℝ) < 1 ∧
    npNorm [(1e-11 : ℝ) - 0, 0 - 0, 0 - 0] ≠ 0 ∧
    calculate_field_at_point (ElectricField.init 1 [0, 0, 0]) [1e-11, 0, 0] =
      some [0.0, 0.0, 0.0] ∧
    ¬ ParallelTo [0.0, 0.0, 0.0]
        ([(1e-11 : ℝ) - 0, 0 - 0, 0 - 0].map
          (fun x => x / npNorm [(1e-11 : ℝ) - 0, 0 - 0, 0 - 0])) := by
  have hnm : npNorm [(1e-11 : ℝ) - 0, 0 - 0, 0 - 0] = 1e-11 := by
    rw [npNorm_three]
    have e : ((1e-11 : ℝ) - 0) ^ 2 + ((0 : ℝ) - 0) ^ 2 + ((0 : ℝ) - 0) ^ 2 =
        (1e-11 : ℝ) ^ 2 := by norm_num
    rw [e, Real.sqrt_sq (by norm_num : (0 : ℝ) ≤ 1e-11)]
  refine ⟨by norm_num, by rw [hnm]; norm_num, ?_, ?_⟩
  · rw [eval_init3, if_pos (by rw [hnm]; norm_num)]
  · rintro ⟨t, ht, heq⟩
    simp only [List.map_cons, List.map_nil, List.cons.injEq, and_true] at heq
    obtain ⟨h1, -, -⟩ := heq
    rw [hnm] at h1
    norm_num at h1
    linarith

/-- C8 amended: the direction-sign property holds at every query point that is
non-singular, i.e. with `|p - position| ≥ 1e-10` (inside the epsilon ball the
guard returns the zero vector, which is neither parallel nor antiparallel). -/
theorem C8_direction_sign (q c1 c2 c3 p1 p2 p3 : ℝ)
    (h : 1e-10 ≤ npNorm [p1 - c1, p2 - c2, p3 - c3]) :
    (0 < q → ParallelTo
        ((calculate_field_at_point (ElectricField.init q [c1, c2, c3])
          [p1, p2, p3]).getD [])
        ([p1 - c1, p2 - c2, p3 - c3].map
          (fun x => x / npNorm [p1 - c1, p2 - c2, p3 - c3]))) ∧
    (q < 0 → AntiparallelTo
        ((calculate_field_at_point (ElectricField.init q [c1, c2, c3])
          [p1, p2, p3]).getD [])
        ([p1 - c1, p2 - c2, p3 - c3].map
          (fun x => x / npNorm [p1 - c1, p2 - c2, p3 - c3]))) := by
  have hng : ¬ npNorm [p1 - c1, p2 - c2, p3 - c3] < 1e-10 := not_lt.mpr h
  have hpos : 0 < npNorm [p1 - c1, p2 - c2, p3 - c3] :=
    lt_of_lt_of_le (by norm_num) h
  rw [eval_init3, if_neg hng]
  constructor
  · intro hq
    refine ⟨8.99e9 * q / npNorm [p1 - c1, p2 - c2, p3 - c3] ^ 2,
      div_pos (mul_pos (by norm_num) hq) (pow_pos hpos 2), ?_⟩
    simp only [Option.getD_some, List.map_cons, List.map_nil, List.cons.injEq, and_true]
    refine ⟨by ring, by ring, by ring⟩
  · intro hq
    refine ⟨8.99e9 * (-q) / npNorm [p1 - c1, p2 - c2, p3 - c3] ^ 2,
      div_pos (mul_pos (by norm_num) (neg_pos.mpr hq)) (pow_pos hpos 2), ?_⟩
    simp only [Option.getD_some, List.map_cons, List.map_nil, List.cons.injEq, and_true]
    refine ⟨by ring, by ring, by ring⟩

/-- Witness for the amended C8 at a unit positive charge and `p = (1,0,0)`. -/
theorem C8_direction_sign_w :
    1e-10 ≤ npNorm [(1 : ℝ) - 0, 0 - 0, 0 - 0] ∧
    ((0 : ℝ) < 1 → ParallelTo
        ((calculate_field_at_point (ElectricField.init 1 [0, 0, 0]) [1, 0, 0]).getD [])
        ([(1 : ℝ) - 0, 0 - 0, 0 - 0].map
          (fun x => x / npNorm [(1 : ℝ) - 0, 0 - 0, 0 - 0]))) ∧
    ((1 : ℝ) < 0 → AntiparallelTo
        ((calculate_field_at_point (ElectricField.init 1 [0, 0, 0]) [1, 0, 0]).getD [])
        ([(1 : ℝ) - 0, 0 - 0, 0 - 0].map
          (fun x => x / npNorm [(1 : ℝ) - 0, 0 - 0, 0 - 0]))) := by
  have h : 1e-10 ≤ npNorm [(1 : ℝ) - 0, 0 - 0, 0 - 0] := by
    rw [npNorm_three]
    have e : ((1 : ℝ) - 0) ^ 2 + ((0 : ℝ) - 0) ^ 2 + ((0 : ℝ) - 0) ^ 2 = 1 := by norm_num
    rw [e, Real.sqrt_one]
    norm_num
  exact ⟨h, C8_direction_sign 1 0 0 0 1 0 0 h⟩

/-- C3: for `n ≥ 1`, the spherical sampler returns `n*n` points and `n*n`
vectors; the point at grid index `(i, j)` is
`(r sin θ_i cos φ_j, r sin θ_i sin φ_j, r cos θ_i)` with `θ_i = iπ/(n-1)` and
`φ_j = 2jπ/(n-1)` (the `n` evenly spaced samples over `[0, π]` resp.
`[0, 2π]`, inclusive of endpoints), and the vector at that index is exactly
`calculate_field_at_point` of that point. -/
theorem C3_spherical_grid (q c1 c2 c3 radius : ℝ) (n : ℕ) (hn : 1 ≤ n) :
    (calculate_field_grid (ElectricField.init q [c1, c2, c3]) radius n).1.length = n * n ∧
    (calculate_field_grid (ElectricField.init q [c1, c2, c3]) radius n).2.length = n * n ∧
    ∀ i j : ℕ, i < n → j < n →
      (calculate_field_grid (ElectricField.init q [c1, c2, c3]) radius n).1.getD
          (i * n + j) [] =
        spherical_point radius (theta_sample n i) (phi_sample n j) ∧
      some ((calculate_field_grid (ElectricField.init q [c1, c2, c3]) radius n).2.getD
          (i * n + j) []) =
        calculate_field_at_point (ElectricField.init q [c1, c2, c3])
          ((calculate_field_grid (ElectricField.init q [c1, c2, c3]) radius n).1.getD
            (i * n + j) []) := by
  refine ⟨by rw [grid_fst]; exact grid_points_length radius n,
    by rw [grid_snd, List.length_map]; exact grid_points_length radius n, ?_⟩
  intro i j hi hj
  have hpoint : (calculate_field_grid (ElectricField.init q [c1, c2, c3]) radius n).1.getD
      (i * n + j) [] = spherical_point radius (theta_sample n i) (phi_sample n j) := by
    rw [grid_fst, grid_points_getD radius hi hj, linspace_getD 0 π hi,
      linspace_getD 0 (2 * π) hj]
    unfold spherical_point theta_sample phi_sample
    have e1 : (0 : ℝ) + (i : ℝ) * ((π - 0) / ((n : ℝ) - 1)) =
        (i : ℝ) * π / ((n : ℝ) - 1) := by ring
    have e2 : (0 : ℝ) + (j : ℝ) * ((2 * π - 0) / ((n : ℝ) - 1)) =
        (j : ℝ) * (2 * π) / ((n : ℝ) - 1) := by ring
    rw [e1, e2]
  refine ⟨hpoint, ?_⟩
  rw [grid_vectors_getD _ radius hi hj, grid_fst, ← grid_fst (ElectricField.init q [c1, c2, c3]), hpoint]
  unfold spherical_point
  obtain ⟨v, hv, -⟩ := eval3_some (ElectricField.init q [c1, c2, c3])
    (by rw [init_position3]; rfl)
    (radius * Real.sin (theta_sample n i) * Real.cos (phi_sample n j))
    (radius * Real.sin (theta_sample n i) * Real.sin (phi_sample n j))
    (radius * Real.cos (theta_sample n i))
  rw [hv, Option.getD_some]

/-- Witness for C3 at `n = 1`, `radius = 1`, unit charge at the origin. -/
theorem C3_spherical_grid_w :
    (calculate_field_grid (ElectricField.init 1 [0, 0, 0]) 1 1).1.length = 1 * 1 ∧
    (calculate_field_grid (ElectricField.init 1 [0, 0, 0]) 1 1).2.length = 1 * 1 ∧
    ∀ i j : ℕ, i < 1 → j < 1 →
      (calculate_field_grid (ElectricField.init 1 [0, 0, 0]) 1 1).1.getD
          (i * 1 + j) [] =
        spherical_point 1 (theta_sample 1 i) (phi_sample 1 j) ∧
      some ((calculate_field_grid (ElectricField.init 1 [0, 0, 0]) 1 1).2.getD
          (i * 1 + j) []) =
        calculate_field_at_point (ElectricField.init 1 [0, 0, 0])
          ((calculate_field_grid (ElectricField.init 1 [0, 0, 0]) 1 1).1.getD
            (i * 1 + j) []) :=
  C3_spherical_grid 1 0 0 0 1 1 (by decide)

lemma sample_grid_fst (f : ElectricField) (xmin xmax ymin ymax : ℝ) (n : ℕ) :
    (sample_grid f xmin xmax ymin ymax n).1 =
      ((List.range n).map (fun i => (List.range n).map (fun j =>
        [(linspace xmin xmax n).getD j 0, (linspace ymin ymax n).getD i 0]))).flatten := rfl

lemma linspace_neg_one_one_three : linspace (-1) 1 3 = [-1, 0, 1] := by
  unfold linspace
  have hr : List.range 3 = [0, 1, 2] := rfl
  rw [hr]
  simp only [List.map_cons, List.map_nil]
  norm_num

/-- C4: sampling the grid descriptor `x_range = y_range = (-1, 1)`,
`n_points = 3` produces exactly 9 points with coordinates ranging over
`{-1, 0, 1}` (evenly spaced, inclusive of both endpoints) in row-major
order, so flat index `i*3 + j` carries `x = -1 + j` and `y = -1 + i`. -/
theorem C4_grid_rowmajor (f : ElectricField) :
    (sample_grid f (-1) 1 (-1) 1 3).1.length = 9 ∧
    (sample_grid f (-1) 1 (-1) 1 3).1 =
      [[-1, -1], [0, -1], [1, -1],
       [-1, 0], [0, 0], [1, 0],
       [-1, 1], [0, 1], [1, 1]] := by
  have hpts : (sample_grid f (-1) 1 (-1) 1 3).1 =
      [[-1, -1], [0, -1], [1, -1],
       [-1, 0], [0, 0], [1, 0],
       [-1, 1], [0, 1], [1, 1]] := by
    rw [sample_grid_fst]
    have hr : List.range 3 = [0, 1, 2] := rfl
    simp only [linspace_neg_one_one_three, hr, List.map_cons, List.map_nil,
      List.flatten_cons, List.flatten_nil, List.getD_cons_zero, List.getD_cons_succ,
      List.append_nil, List.cons_append, List.nil_append]
  exact ⟨by rw [hpts]; rfl, hpts⟩

/-- C5 as stated is false: with `radius = 0 ≤ 0` and `n_points = 1` no
`InvalidSampleParameters` error is raised — `calculate_field_grid` completes
normally and returns a full 1-point SampleSet. -/
theorem C5_cex :
    ((0 : ℝ) ≤ 0) ∧
    (calculate_field_grid (ElectricField.init 1 [2, 0, 0]) 0 1).1.length = 1 ∧
    (calculate_field_grid (ElectricField.init 1 [2, 0, 0]) 0 1).2.length = 1 := by
  refine ⟨le_refl 0, ?_, ?_⟩
  · rw [grid_fst]
    simpa using grid_points_length 0 1
  · rw [grid_snd, List.length_map]
    simpa using grid_points_length 0 1

/-- C5 amended: `calculate_field_grid` performs no parameter validation at
all; for every radius (including `radius ≤ 0`) and every `n_points ≥ 0` it
completes without error and returns the full `n_points²` SampleSet
(`n_points = 0` yields the empty SampleSet rather than an error). -/
theorem C5_no_validation (f : ElectricField) (radius : ℝ) (n : ℕ) :
    (calculate_field_grid f radius n).1.length = n * n ∧
    (calculate_field_grid f radius n).2.length = n * n := by
  refine ⟨?_, ?_⟩
  · rw [grid_fst]
    exact grid_points_length radius n
  · rw [grid_snd, List.length_map]
    exact grid_points_length radius n

/-- C9: sampling is deterministic — two calls on fields with identical
charge, position and constant, and identical radius and `n_points`, return
identical SampleSets (same points in the same order, same vectors at the
same indices). -/
theorem C9_sample_deterministic (f1 f2 : ElectricField) (r1 r2 : ℝ) (n1 n2 : ℕ)
    (hq : f1.charge = f2.charge) (hp : f1.position = f2.position) (hk : f1.k = f2.k)
    (hr : r1 = r2) (hn : n1 = n2) :
    calculate_field_grid f1 r1 n1 = calculate_field_grid f2 r2 n2 := by
  have hf : f1 = f2 := by
    cases f1
    cases f2
    simp_all
  rw [hf, hr, hn]

/-- Witness for C9: two runs with identical inputs. -/
theorem C9_sample_deterministic_w :
    calculate_field_grid (ElectricField.init 1 [0, 0, 0]) 1 2 =
      calculate_field_grid (ElectricField.init 1 [0, 0, 0]) 1 2 :=
  C9_sample_deterministic _ _ _ _ _ _ rfl rfl rfl rfl rfl

/-- C10: the constructor always stores a 3-component position (a 2-component
argument is zero-padded at construction), and every successful result of
`calculate_field_at_point` — the singularity-guard zero vector included — is
a 3-component vector, whether position and query point had 2 or 3
components. -/
theorem C10_always_three_components (q a b : ℝ) (pos p : List ℝ)
    (hpos : pos.length = 2 ∨ pos.length = 3)
    (hp : p.length = 2 ∨ p.length = 3) :
    (ElectricField.init q [a, b]).position = [a, b, 0.0] ∧
    (ElectricField.init q pos).position.length = 3 ∧
    ∃ v, calculate_field_at_point (ElectricField.init q pos) p = some v ∧
      v.length = 3 := by
  refine ⟨rfl, init_position_length q pos hpos, ?_⟩
  have h3 := init_position_length q pos hpos
  have hp3 := promote_point_length p hp
  have hsub : npSub (promote_point p) (ElectricField.init q pos).position =
      some (List.zipWith (fun x y => x - y) (promote_point p)
        (ElectricField.init q pos).position) :=
    npSub_of_length_eq _ _ (by rw [hp3, h3])
  rw [eval_eq_of_sub _ _ _ hsub]
  have hlen : (List.zipWith (fun x y => x - y) (promote_point p)
      (ElectricField.init q pos).position).length = 3 := by
    rw [List.length_zipWith, hp3, h3]
    rfl
  split
  · exact ⟨_, rfl, rfl⟩
  · exact ⟨_, rfl, by simp [hlen]⟩

/-- Witness for C10 with a 2-component position and a 2-component point. -/
theorem C10_always_three_components_w :
    (ElectricField.init 1 [(1 : ℝ), 2]).position = [1, 2, 0.0] ∧
    (ElectricField.init 1 [(1 : ℝ), 2]).position.length = 3 ∧
    ∃ v, calculate_field_at_point (ElectricField.init 1 [(1 : ℝ), 2]) [3, 4] = some v ∧
      v.length = 3 :=
  C10_always_three_components 1 1 2 [1, 2] [3, 4] (Or.inl rfl) (Or.inl rfl)
